import Mathlib

/-!
Verification of the likelihood-calculator core (docs/app.js, class
LikelihoodCalculator) against its natural-language specification.

Shallow embedding conventions:
* JavaScript numbers are modelled as exact rationals (ℚ).  The one place
  where IEEE semantics is observable at this granularity — division by
  zero producing NaN/Infinity — is modelled explicitly by jsDiv returning
  none ("not a finite number").
* The browser localStorage slot for the key "entities" is modelled as an
  Option String (none = key absent).  JSON.parse / JSON.stringify are
  modelled by an executable codec over a deep Json type; numbers are kept
  in decimal mantissa/exponent form (m, e) denoting m / 10^e, matching
  the decimal texts the application reads and writes.
* Fallible JavaScript code (JSON.parse throwing SyntaxError, strict-mode
  property assignment on non-objects throwing TypeError) is modelled with
  Except JsError.
* DOM access is out of scope; functions take their inputs (scores, the
  selected category/profile names, the stored string) as arguments.
-/

namespace LikelihoodCalc

/-! ## Data model (profiles.json catalog) -/

/-- A scoring criterion (docs/app.js data model: metric, description,
weight, invert?, scoreDescriptors?).  scoreDescriptors is a mapping from
score keys to texts, kept as a list of (key, text) pairs in the
enumeration order of the underlying object's keys. -/
structure Criterion where
  metric : String
  description : String
  weight : ℚ
  invert : Bool
  scoreDescriptors : Option (List (ℚ × String))

/-- A profile: a named set of criteria. -/
structure Profile where
  name : String
  criteria : List Criterion

/-- A category: named, explicitly slugged, weighted group of profiles. -/
structure Category where
  name : String
  slug : String
  weight : ℚ
  profiles : List Profile

/-! ## Scoring engine -/

/-- JavaScript division where a zero denominator yields NaN or ±Infinity;
none models "not a finite number". -/
def jsDiv (a b : ℚ) : Option ℚ :=
  if b = 0 then none else some (a / b)

/-- A criterion as carried in this.adjustedCriteria after displayCriteria:
the original criterion spread together with its adjustedWeight.  Only the
fields read by the scoring functions are kept. -/
structure AdjustedCriterion where
  invert : Bool
  adjustedWeight : ℚ

/-- displayCriteria, weight-total step:
profile.criteria.reduce((sum, criterion) => sum + criterion.weight, 0). -/
def totalWeights (criteria : List Criterion) : ℚ :=
  criteria.foldl (fun sum criterion => sum + criterion.weight) 0

/-- displayCriteria, weight-adjustment step.  When the nominal weights do
not sum to 100 each weight is rescaled by (weight / totalWeights) * 100;
a zero totalWeights makes that division non-finite (none).  When the sum
is exactly 100 the weights are taken unchanged. -/
def adjustedWeights (criteria : List Criterion) : List (Option ℚ) :=
  let tw := totalWeights criteria
  if tw ≠ 100 then
    criteria.map (fun criterion => (jsDiv criterion.weight tw).map (· * 100))
  else
    criteria.map (fun criterion => some criterion.weight)

/-- calculateCriterionWeightedScore (docs/app.js lines 579–591). -/
def calculateCriterionWeightedScore (criterion : AdjustedCriterion) (score : ℚ) : ℚ :=
  if criterion.invert then
    ((5 - score) * criterion.adjustedWeight) / 4
  else
    ((score - 1) * criterion.adjustedWeight) / 4

/-- calculateTotalScore (docs/app.js lines 599–604):
weightedScores.reduce((acc, v) => acc + v, 0). -/
def calculateTotalScore (weightedScores : List ℚ) : ℚ :=
  weightedScores.foldl (fun accumulator currentValue => accumulator + currentValue) 0

/-- The composition getScores → calculateWeightedScores run against the
adjusted criteria of a profile: each user score is paired with its
criterion and the adjusted weight produced by displayCriteria.  A
non-finite adjusted weight (division by zero) makes the corresponding
weighted score non-finite. -/
def calculateWeightedScoresOpt (criteria : List Criterion) (scores : List ℚ) : List (Option ℚ) :=
  List.zipWith
    (fun (cw : Criterion × Option ℚ) score =>
      cw.2.map (fun w => calculateCriterionWeightedScore ⟨cw.1.invert, w⟩ score))
    (criteria.zip (adjustedWeights criteria)) scores

/-- End-to-end aggregate of calculateAndDisplayResults up to totalScore:
sums the per-criterion weighted scores, propagating non-finite values
(NaN poisons a JavaScript sum). -/
def calculateTotalScoreOpt (criteria : List Criterion) (scores : List ℚ) : Option ℚ :=
  (calculateWeightedScoresOpt criteria scores).foldl
    (fun acc c => acc.bind (fun a => c.map (fun x => a + x))) (some 0)

/-- calculateAndDisplayResults (docs/app.js line 523):
percentageLikelihood = (totalScore / 100) * 100. -/
def percentageLikelihood (totalScore : ℚ) : ℚ :=
  (totalScore / 100) * 100

/-! ## Basic facts about the scoring engine -/

theorem totalWeights_eq_sum (criteria : List Criterion) :
    totalWeights criteria = (criteria.map (·.weight)).sum := by
  suffices h : ∀ a : ℚ,
      criteria.foldl (fun sum criterion => sum + criterion.weight) a
        = a + (criteria.map (·.weight)).sum by
    simpa [totalWeights] using h 0
  induction criteria with
  | nil => intro a; simp
  | cons c cs ih => intro a; simp [List.foldl_cons, ih]; ring

theorem calculateTotalScore_eq_sum (ws : List ℚ) :
    calculateTotalScore ws = ws.sum := by
  suffices h : ∀ a : ℚ,
      ws.foldl (fun x y => x + y) a = a + ws.sum by
    simpa [calculateTotalScore] using h 0
  induction ws with
  | nil => intro a; simp
  | cons w ws ih => intro a; simp [List.foldl_cons, ih]; ring

/-- Per-criterion contribution bounds: with a non-negative weight and a
score in [1,5] the contribution lies between 0 and the adjusted weight,
for both polarities. -/
theorem criterionWeightedScore_bounds (inv : Bool) (w s : ℚ)
    (hw : 0 ≤ w) (h1 : 1 ≤ s) (h5 : s ≤ 5) :
    0 ≤ calculateCriterionWeightedScore ⟨inv, w⟩ s
      ∧ calculateCriterionWeightedScore ⟨inv, w⟩ s ≤ w := by
  cases inv with
  | false =>
    have e : calculateCriterionWeightedScore ⟨false, w⟩ s = (s - 1) * w / 4 := rfl
    rw [e]
    constructor
    · nlinarith
    · nlinarith
  | true =>
    have e : calculateCriterionWeightedScore ⟨true, w⟩ s = (5 - s) * w / 4 := rfl
    rw [e]
    constructor
    · nlinarith
    · nlinarith

/-- With a nonzero weight total, every adjusted weight is the finite
rational weight / total * 100 (also when the total is exactly 100, where
that expression collapses to the weight itself). -/
theorem adjustedWeights_of_ne_zero (criteria : List Criterion)
    (h : totalWeights criteria ≠ 0) :
    adjustedWeights criteria
      = criteria.map (fun c => some (c.weight / totalWeights criteria * 100)) := by
  by_cases h100 : totalWeights criteria = 100
  · simp only [adjustedWeights, h100, ne_eq, not_true_eq_false, if_false, ite_false]
    refine List.map_congr_left (fun c _ => ?_)
    norm_num
  · simp only [adjustedWeights, ne_eq, h100, not_false_eq_true, if_true, ite_true]
    refine List.map_congr_left (fun c _ => ?_)
    simp [jsDiv, h]

/-- The pure per-criterion contributions of a profile whose weights have
been rescaled by weight / tw * 100. -/
def rescaledContribs (criteria : List Criterion) (scores : List ℚ) (tw : ℚ) : List ℚ :=
  List.zipWith
    (fun c s => calculateCriterionWeightedScore ⟨c.invert, c.weight / tw * 100⟩ s)
    criteria scores

theorem calculateWeightedScoresOpt_of_ne_zero (criteria : List Criterion) (scores : List ℚ)
    (h : totalWeights criteria ≠ 0) :
    calculateWeightedScoresOpt criteria scores
      = (rescaledContribs criteria scores (totalWeights criteria)).map some := by
  unfold calculateWeightedScoresOpt rescaledContribs
  rw [adjustedWeights_of_ne_zero criteria h]
  generalize totalWeights criteria = tw
  clear h
  induction criteria generalizing scores with
  | nil => simp
  | cons c cs ih =>
    cases scores with
    | nil => simp
    | cons s ss => simp [ih]

theorem optFold_map_some (l : List ℚ) :
    ∀ a : ℚ,
      (l.map some).foldl (fun acc c => acc.bind (fun x => c.map (fun y => x + y))) (some a)
        = some (a + l.sum) := by
  induction l with
  | nil => intro a; simp
  | cons x xs ih => intro a; simp [ih, add_assoc]

theorem optFold_none (l : List (Option ℚ)) :
    l.foldl (fun acc c => acc.bind (fun x => c.map (fun y => x + y))) none = none := by
  induction l with
  | nil => rfl
  | cons x xs ih => simpa using ih

/-- Summing bounds for zipped contributions: non-negative weights and
scores in [1,5] confine the contribution sum to [0, sum of weights]. -/
theorem rescaledContribs_sum_bounds (tw : ℚ) :
    ∀ (criteria : List Criterion) (scores : List ℚ),
      (∀ c ∈ criteria, 0 ≤ c.weight / tw * 100) →
      (∀ s ∈ scores, 1 ≤ s ∧ s ≤ 5) →
      0 ≤ (rescaledContribs criteria scores tw).sum
        ∧ (rescaledContribs criteria scores tw).sum
            ≤ (criteria.map (fun c => c.weight / tw * 100)).sum := by
  intro criteria
  induction criteria with
  | nil => intro scores _ _; simp [rescaledContribs]
  | cons c cs ih =>
    intro scores hw hs
    cases scores with
    | nil =>
      refine ⟨le_refl 0, ?_⟩
      have : ∀ x ∈ cs, 0 ≤ x.weight / tw * 100 := fun x hx => hw x (by simp [hx])
      have hsum : 0 ≤ (cs.map (fun x => x.weight / tw * 100)).sum := by
        refine List.sum_nonneg ?_
        intro q hq
        obtain ⟨x, hx, rfl⟩ := List.mem_map.mp hq
        exact this x hx
      have hc : 0 ≤ c.weight / tw * 100 := hw c (by simp)
      simpa [rescaledContribs] using by linarith
    | cons s ss =>
      have hw0 : 0 ≤ c.weight / tw * 100 := hw c (by simp)
      have hs0 : 1 ≤ s ∧ s ≤ 5 := hs s (by simp)
      have hb := criterionWeightedScore_bounds c.invert (c.weight / tw * 100) s hw0 hs0.1 hs0.2
      have htail := ih ss (fun x hx => hw x (by simp [hx])) (fun x hx => hs x (by simp [hx]))
      constructor
      · simp only [rescaledContribs, List.zipWith_cons_cons, List.sum_cons]
        have := htail.1
        simp only [rescaledContribs] at this
        linarith [hb.1]
      · simp only [rescaledContribs, List.zipWith_cons_cons, List.sum_cons, List.map_cons]
        have := htail.2
        simp only [rescaledContribs] at this
        linarith [hb.2]

/-- The rescaled weights of a profile sum to exactly 100 whenever the
nominal total is nonzero. -/
theorem rescaled_sum_eq_100 (criteria : List Criterion)
    (h : totalWeights criteria ≠ 0) :
    (criteria.map (fun c => c.weight / totalWeights criteria * 100)).sum = 100 := by
  have hrw : (fun c : Criterion => c.weight / totalWeights criteria * 100)
      = fun c : Criterion => c.weight * (100 / totalWeights criteria) := by
    funext c; ring
  rw [hrw, List.sum_map_mul_right, ← totalWeights_eq_sum]
  field_simp

/-- C1: for a criterion with adjusted weight w, the weighted contribution
at score s is (s - 1) * w / 4 when not inverted (0 at s = 1, w at s = 5)
and (5 - s) * w / 4 when inverted (w at s = 1, 0 at s = 5). -/
theorem contribution_formula (w s : ℚ) :
    calculateCriterionWeightedScore ⟨false, w⟩ s = (s - 1) * w / 4
      ∧ calculateCriterionWeightedScore ⟨true, w⟩ s = (5 - s) * w / 4
      ∧ calculateCriterionWeightedScore ⟨false, w⟩ 1 = 0
      ∧ calculateCriterionWeightedScore ⟨false, w⟩ 5 = w
      ∧ calculateCriterionWeightedScore ⟨true, w⟩ 1 = w
      ∧ calculateCriterionWeightedScore ⟨true, w⟩ 5 = 0 := by
  refine ⟨rfl, rfl, ?_, ?_, ?_, ?_⟩ <;>
    simp [calculateCriterionWeightedScore] <;> ring

/-- C2: for non-negative weights with positive total and one score in
[1,5] per criterion, the aggregate total is a finite value in [0, 100]. -/
theorem totalScore_in_range (criteria : List Criterion) (scores : List ℚ)
    (hw : ∀ c ∈ criteria, 0 ≤ c.weight)
    (hpos : 0 < totalWeights criteria)
    (_hlen : scores.length = criteria.length)
    (hs : ∀ s ∈ scores, 1 ≤ s ∧ s ≤ 5) :
    ∃ t, calculateTotalScoreOpt criteria scores = some t ∧ 0 ≤ t ∧ t ≤ 100 := by
  have hne : totalWeights criteria ≠ 0 := ne_of_gt hpos
  refine ⟨(rescaledContribs criteria scores (totalWeights criteria)).sum, ?_, ?_, ?_⟩
  · rw [calculateTotalScoreOpt, calculateWeightedScoresOpt_of_ne_zero criteria scores hne]
    simpa using optFold_map_some (rescaledContribs criteria scores (totalWeights criteria)) 0
  · refine (rescaledContribs_sum_bounds (totalWeights criteria) criteria scores ?_ hs).1
    intro c hc
    have := hw c hc
    positivity
  · have hb := (rescaledContribs_sum_bounds (totalWeights criteria) criteria scores ?_ hs).2
    · calc (rescaledContribs criteria scores (totalWeights criteria)).sum
          ≤ (criteria.map (fun c => c.weight / totalWeights criteria * 100)).sum := hb
        _ = 100 := rescaled_sum_eq_100 criteria hne
    · intro c hc
      have := hw c hc
      positivity

/-- C2 witness: a two-criterion profile with weights 50/30 and scores
5 and 2 has a finite total in [0, 100]. -/
theorem totalScore_in_range_witness :
    ∃ t, calculateTotalScoreOpt
        [⟨"a", "", 50, false, none⟩, ⟨"b", "", 30, true, none⟩] [5, 2]
        = some t ∧ 0 ≤ t ∧ t ≤ 100 :=
  totalScore_in_range
    [⟨"a", "", 50, false, none⟩, ⟨"b", "", 30, true, none⟩] [5, 2]
    (by intro c hc; fin_cases hc <;> norm_num)
    (by norm_num [totalWeights])
    (by norm_num)
    (by intro s hs; fin_cases hs <;> norm_num)

/-- C9: dividing the engine total by 100 and multiplying by 100 again is
the identity; the displayed percentage equals the total itself. -/
theorem percentage_is_total (weightedScores : List ℚ) :
    percentageLikelihood (calculateTotalScore weightedScores)
      = calculateTotalScore weightedScores := by
  rw [percentageLikelihood, div_mul_cancel₀]
  norm_num

/-- C4 counterexample: a single criterion of weight 0 (weight total 0) is
rescaled by a division by zero — the adjusted weight is non-finite (NaN),
not 0, and the aggregate total is non-finite as well rather than 0. -/
theorem zero_weight_sum_counterexample :
    adjustedWeights [⟨"m", "", 0, false, none⟩] = [none]
      ∧ calculateTotalScoreOpt [⟨"m", "", 0, false, none⟩] [1] = none := by
  constructor <;>
    norm_num [adjustedWeights, totalWeights, jsDiv, calculateTotalScoreOpt,
      calculateWeightedScoresOpt]

/-- C4 amended: a profile with zero criteria yields total 0 (no division
is evaluated); but for a profile with at least one criterion whose weight
total is 0, the rescaling is not skipped: every adjustedWeight is a
division by zero (non-finite), and the aggregate total with at least one
score is non-finite rather than 0. -/
theorem zero_weights_behaviour :
    calculateTotalScoreOpt [] [] = some 0
      ∧ (∀ criteria : List Criterion, criteria ≠ [] → totalWeights criteria = 0 →
          adjustedWeights criteria = criteria.map (fun _ => none))
      ∧ (∀ (criteria : List Criterion) (scores : List ℚ),
          criteria ≠ [] → scores ≠ [] → totalWeights criteria = 0 →
          calculateTotalScoreOpt criteria scores = none) := by
  have key : ∀ criteria : List Criterion, totalWeights criteria = 0 →
      adjustedWeights criteria = criteria.map (fun _ => none) := by
    intro criteria h0
    rw [adjustedWeights]
    simp only [h0]
    rw [if_pos (by norm_num)]
    refine List.map_congr_left (fun c _ => ?_)
    simp [jsDiv]
  refine ⟨rfl, fun criteria _ h0 => key criteria h0, ?_⟩
  intro criteria scores hc hsne h0
  cases criteria with
  | nil => exact absurd rfl hc
  | cons c cs =>
    cases scores with
    | nil => exact absurd rfl hsne
    | cons s ss =>
      rw [calculateTotalScoreOpt, calculateWeightedScoresOpt, key (c :: cs) h0]
      simp only [List.map_cons, List.zip_cons_cons, List.zipWith_cons_cons,
        List.foldl_cons, Option.map_none', Option.bind_some]
      exact optFold_none _

/-- C4 amended witness: concrete instances of all three parts. -/
theorem zero_weights_behaviour_witness :
    calculateTotalScoreOpt [] [] = some 0
      ∧ adjustedWeights [⟨"m", "", 0, false, none⟩]
          = ([⟨"m", "", 0, false, none⟩] : List Criterion).map (fun _ => none)
      ∧ calculateTotalScoreOpt [⟨"m", "", 0, false, none⟩] [3] = none := by
  refine ⟨zero_weights_behaviour.1, ?_, ?_⟩
  · exact zero_weights_behaviour.2.1 [⟨"m", "", 0, false, none⟩] (by simp)
      (by norm_num [totalWeights])
  · exact zero_weights_behaviour.2.2 [⟨"m", "", 0, false, none⟩] [3] (by simp) (by simp)
      (by norm_num [totalWeights])

/-! ## Descriptor lookup (getScoreDescriptor, docs/app.js lines 495–512) -/

/-- getScoreDescriptor: absent scoreDescriptors give the empty string;
otherwise the keys are scanned keeping the key of least absolute distance
to the score (strict comparison, so the first-encountered key wins ties),
and the descriptor stored under that key is returned.  A present but
empty descriptor object makes the scan start from an undefined key and
the final key lookup throws (modelled as none). -/
def getScoreDescriptor (descriptors : Option (List (ℚ × String))) (score : ℚ) : Option String :=
  match descriptors with
  | none => some ""
  | some l =>
    let scores := l.map Prod.fst
    match scores with
    | [] => none
    | k0 :: _ =>
      let best := scores.foldl
        (fun best s => if |score - s| < best.2 then (s, |score - s|) else best)
        (k0, |score - k0|)
      some ((((l.find? (fun p => decide (p.1 = best.1))).map Prod.snd)).getD "")

/-- Modelled from the spec: the descriptor of the first-encountered key
whose absolute distance to the score is least among all keys. -/
def nearestBySpec (l : List (ℚ × String)) (score : ℚ) : Option String :=
  (l.find? (fun p => l.all (fun q => decide (|score - p.1| ≤ |score - q.1|)))).map Prod.snd

theorem foldl_minpair (score : ℚ) :
    ∀ (l : List ℚ) (b : ℚ),
      l.foldl (fun best s => if |score - s| < best.2 then (s, |score - s|) else best)
          (b, |score - b|)
        = (l.foldl (fun best s => if |score - s| < |score - best| then s else best) b,
           |score - l.foldl (fun best s => if |score - s| < |score - best| then s else best) b|) := by
  intro l
  induction l with
  | nil => intro b; rfl
  | cons x xs ih =>
    intro b
    simp only [List.foldl_cons]
    by_cases h : |score - x| < |score - b|
    · rw [if_pos h, if_pos h, ih]
    · rw [if_neg h, if_neg h, ih]

theorem foldl_min_decomp (f : ℚ → ℚ) :
    ∀ (l : List ℚ) (b : ℚ),
      ∃ pre post,
        b :: l = pre ++ (l.foldl (fun best s => if f s < f best then s else best) b) :: post
          ∧ (∀ x ∈ pre, f (l.foldl (fun best s => if f s < f best then s else best) b) < f x)
          ∧ (∀ x ∈ post, f (l.foldl (fun best s => if f s < f best then s else best) b) ≤ f x) := by
  intro l
  induction l with
  | nil =>
    intro b
    exact ⟨[], [], rfl, by simp, by simp⟩
  | cons a t ih =>
    intro b
    simp only [List.foldl_cons]
    by_cases h : f a < f b
    · rw [if_pos h]
      obtain ⟨pre, post, hdec, hpre, hpost⟩ := ih a
      have hmin : ∀ x ∈ a :: t,
          f (t.foldl (fun best s => if f s < f best then s else best) a) ≤ f x := by
        intro x hx
        rw [hdec] at hx
        rcases List.mem_append.mp hx with hx1 | hx2
        · exact le_of_lt (hpre x hx1)
        · rcases List.mem_cons.mp hx2 with rfl | hx3
          · exact le_refl _
          · exact hpost x hx3
      refine ⟨b :: pre, post, ?_, ?_, hpost⟩
      · rw [List.cons_append, ← hdec]
      · intro x hx
        rcases List.mem_cons.mp hx with rfl | hx'
        · exact lt_of_le_of_lt (hmin a (by simp)) h
        · exact hpre x hx'
    · rw [if_neg h]
      obtain ⟨pre, post, hdec, hpre, hpost⟩ := ih b
      cases pre with
      | nil =>
        simp only [List.nil_append] at hdec
        have hb : b = t.foldl (fun best s => if f s < f best then s else best) b :=
          (List.cons.injEq _ _ _ _).mp hdec |>.1
        have ht : t = post := (List.cons.injEq _ _ _ _).mp hdec |>.2
        refine ⟨[], a :: t, ?_, by simp, ?_⟩
        · simp [← hb]
        · intro x hx
          rcases List.mem_cons.mp hx with rfl | hx'
          · rw [← hb]; exact le_of_not_lt h
          · rw [ht] at hx'; exact hpost x hx'
      | cons p0 pre₂ =>
        simp only [List.cons_append] at hdec
        have hb : b = p0 := (List.cons.injEq _ _ _ _).mp hdec |>.1
        have ht : t = pre₂
            ++ (t.foldl (fun best s => if f s < f best then s else best) b) :: post :=
          (List.cons.injEq _ _ _ _).mp hdec |>.2
        have hrb : f (t.foldl (fun best s => if f s < f best then s else best) b) < f b := by
          have := hpre p0 (by simp)
          rwa [← hb] at this
        refine ⟨b :: a :: pre₂, post, ?_, ?_, hpost⟩
        · simp only [List.cons_append]
          rw [← ht]
        · intro x hx
          rcases List.mem_cons.mp hx with rfl | hx'
          · exact hrb
          · rcases List.mem_cons.mp hx' with rfl | hx''
            · exact lt_of_lt_of_le hrb (le_of_not_lt h)
            · exact hpre x (by simp [hx''])

theorem map_fst_decomp :
    ∀ (l : List (ℚ × String)) (pre : List ℚ) (r : ℚ) (post : List ℚ),
      l.map Prod.fst = pre ++ r :: post →
      ∃ lpre p lpost, l = lpre ++ p :: lpost
        ∧ lpre.map Prod.fst = pre ∧ p.1 = r ∧ lpost.map Prod.fst = post := by
  intro l
  induction l with
  | nil =>
    intro pre r post hmap
    exact absurd hmap.symm (List.append_ne_nil_of_right_ne_nil pre (by simp))
  | cons q l' ih =>
    intro pre r post hmap
    cases pre with
    | nil =>
      simp only [List.map_cons, List.nil_append] at hmap
      obtain ⟨h1, h2⟩ := (List.cons.injEq _ _ _ _).mp hmap
      exact ⟨[], q, l', by simp, by simp, h1, h2⟩
    | cons p0 pre₂ =>
      simp only [List.map_cons, List.cons_append] at hmap
      obtain ⟨h1, h2⟩ := (List.cons.injEq _ _ _ _).mp hmap
      obtain ⟨lpre, p, lpost, hl, hp1, hp2, hp3⟩ := ih pre₂ r post h2
      exact ⟨q :: lpre, p, lpost, by simp [hl], by simp [hp1, h1], hp2, hp3⟩

theorem find?_append_of_false {α : Type} (p : α → Bool) :
    ∀ (l₁ l₂ : List α), (∀ x ∈ l₁, p x = false) → (l₁ ++ l₂).find? p = l₂.find? p := by
  intro l₁
  induction l₁ with
  | nil => intro l₂ _; simp
  | cons a t ih =>
    intro l₂ hfalse
    have ha : p a = false := hfalse a (List.mem_cons_self a t)
    rw [List.cons_append, List.find?_cons_of_neg _ (by simp [ha])]
    exact ih l₂ (fun x hx => hfalse x (by simp [hx]))

/-- C5: descriptor lookup returns the descriptor of the key nearest to
the score by absolute distance, ties resolved to the first-encountered
key in enumeration order; absent scoreDescriptors give the empty string. -/
theorem descriptor_lookup_nearest (score : ℚ) :
    getScoreDescriptor none score = some ""
      ∧ ∀ l : List (ℚ × String), l ≠ [] →
          getScoreDescriptor (some l) score = nearestBySpec l score := by
  refine ⟨rfl, ?_⟩
  intro l hne
  obtain ⟨q0, t0, rfl⟩ := List.exists_cons_of_ne_nil hne
  set f : ℚ → ℚ := fun k => |score - k| with hf
  -- Reduce the source fold (which caches the minimal difference) to the plain fold.
  have hpair := foldl_minpair score ((q0 :: t0).map Prod.fst) q0.1
  -- The fold over the full key list starting from its own head equals the
  -- fold over the tail (the first step compares the head with itself).
  have hfold : ((q0 :: t0).map Prod.fst).foldl
        (fun best s => if |score - s| < |score - best| then s else best) q0.1
      = (t0.map Prod.fst).foldl
        (fun best s => if |score - s| < |score - best| then s else best) q0.1 := by
    simp only [List.map_cons, List.foldl_cons]
    rw [if_neg (lt_irrefl _)]
  set r := (t0.map Prod.fst).foldl
      (fun best s => if |score - s| < |score - best| then s else best) q0.1 with hr
  obtain ⟨pre, post, hdec, hpre, hpost⟩ := foldl_min_decomp f (t0.map Prod.fst) q0.1
  rw [← hr] at hdec hpre hpost
  have hdec' : (q0 :: t0).map Prod.fst = pre ++ r :: post := by
    simpa using hdec
  obtain ⟨lpre, pmin, lpost, hl, hmp, hpk, hmq⟩ := map_fst_decomp (q0 :: t0) pre r post hdec'
  -- Each key strictly before the minimiser has strictly larger distance.
  have hpre_keys : ∀ x ∈ lpre, f r < f x.1 := by
    intro x hx
    exact hpre x.1 (by rw [← hmp]; exact List.mem_map_of_mem Prod.fst hx)
  have hpost_keys : ∀ x ∈ lpost, f r ≤ f x.1 := by
    intro x hx
    exact hpost x.1 (by rw [← hmq]; exact List.mem_map_of_mem Prod.fst hx)
  -- The source-side key-equality search returns exactly the minimiser pair.
  have hfind1 : ((q0 :: t0).find? (fun p => decide (p.1 = r))) = some pmin := by
    rw [hl, find?_append_of_false _ lpre _ ?hfalse]
    · exact List.find?_cons_of_pos _ (by simp [hpk])
    case hfalse =>
      intro x hx
      simp only [decide_eq_false_iff_not]
      intro hxr
      exact absurd (hxr ▸ hpre_keys x hx) (lt_irrefl _)
  have hmemMin : pmin ∈ lpre ++ pmin :: lpost :=
    List.mem_append_right _ (List.mem_cons_self _ _)
  -- The spec-side minimality search returns the same pair.
  have hall : ∀ q ∈ q0 :: t0, f r ≤ f q.1 := by
    intro q hq
    rw [hl] at hq
    rcases List.mem_append.mp hq with hq1 | hq2
    · exact le_of_lt (hpre_keys q hq1)
    · rcases List.mem_cons.mp hq2 with rfl | hq3
      · rw [hpk]
      · exact hpost_keys q hq3
  have hfind2 : ((q0 :: t0).find?
        (fun p => (q0 :: t0).all (fun q => decide (|score - p.1| ≤ |score - q.1|))))
      = some pmin := by
    conv =>
      lhs
      rw [hl]
    rw [find?_append_of_false _ lpre _ ?hfalse2]
    · refine List.find?_cons_of_pos _ ?_
      rw [List.all_eq_true]
      intro q hq
      simp only [decide_eq_true_eq, hpk]
      exact hall q (hl ▸ hq)
    case hfalse2 =>
      intro x hx
      rw [List.all_eq_false]
      refine ⟨pmin, hmemMin, ?_⟩
      simp only [decide_eq_true_eq, hpk, not_le]
      exact hpre_keys x hx
  -- Assemble both sides.
  show some ((((q0 :: t0).find? (fun p => decide (p.1 = ((((q0 :: t0).map Prod.fst).foldl
        (fun best s => if |score - s| < best.2 then (s, |score - s|) else best)
        (q0.1, |score - q0.1|)).1)))).map Prod.snd).getD "")
      = nearestBySpec (q0 :: t0) score
  rw [hpair, hfold]
  have hproj : (fun p : ℚ × String => decide (p.1 = ((r, |score - r|) : ℚ × ℚ).1))
      = fun p : ℚ × String => decide (p.1 = r) := rfl
  rw [hproj, hfind1, nearestBySpec, hfind2]
  rfl

/-- C5 witness: keys 1, 3, 5 with score 4 — the tie between keys 3 and 5
resolves to the first-encountered key 3, descriptor "b". -/
theorem descriptor_lookup_nearest_witness :
    (([(1, "a"), (3, "b"), (5, "c")] : List (ℚ × String)) ≠ [])
      ∧ getScoreDescriptor (some [(1, "a"), (3, "b"), (5, "c")]) 4
          = nearestBySpec [(1, "a"), (3, "b"), (5, "c")] 4 :=
  ⟨by simp, (descriptor_lookup_nearest 4).2 [(1, "a"), (3, "b"), (5, "c")] (by simp)⟩

/-! ## Slug derivation (generateSlug, docs/app.js lines 1255–1257) -/

theorem dropWhile_length_le (p : Char → Bool) :
    ∀ l : List Char, (l.dropWhile p).length ≤ l.length := by
  intro l
  induction l with
  | nil => simp
  | cons c cs ih =>
    rw [List.dropWhile_cons]
    by_cases h : p c
    · simp only [h, if_true]
      exact le_trans ih (Nat.le_succ _)
    · simp [h]

/-- The whitespace class matched by the replace pattern (ASCII range). -/
def jsIsSpace (c : Char) : Bool :=
  (c == ' ') || (c == '\t') || (c == '\n') || (c == '\r') || (c == '\x0B') || (c == '\x0C')

/-- The word-character class: ASCII letters, digits and underscore. -/
def jsWordChar (c : Char) : Bool :=
  c.isAlpha || c.isDigit || c == '_'

/-- One global replace of maximal whitespace runs by a single hyphen,
as a left-to-right scan; inRun records whether the scan stands inside a
whitespace run whose hyphen has already been emitted. -/
def collapseWsAux (inRun : Bool) : List Char → List Char
  | [] => []
  | c :: cs =>
    if jsIsSpace c then
      (if inRun then [] else ['-']) ++ collapseWsAux true cs
    else
      c :: collapseWsAux false cs

/-- One global replace deleting every character that is not a word
character or a hyphen. -/
def stripNonWord (l : List Char) : List Char :=
  l.filter (fun c => jsWordChar c || c == '-')

/-- generateSlug: lower-case, replace whitespace runs by hyphens, strip
the remaining non-word non-hyphen characters. -/
def generateSlug (name : String) : String :=
  String.mk (stripNonWord (collapseWsAux false (name.data.map Char.toLower)))

/-- Modelled from the spec: a single fused pass over the lower-cased
characters — a whitespace run becomes one hyphen, alphanumeric, hyphen
and underscore characters are kept, everything else is stripped. -/
def slugGo : List Char → List Char
  | [] => []
  | c :: cs =>
    if jsIsSpace c then '-' :: slugGo (cs.dropWhile jsIsSpace)
    else if jsWordChar c || c == '-' then c :: slugGo cs
    else slugGo cs
termination_by l => l.length
decreasing_by
  · simp only [List.length_cons]
    exact Nat.lt_succ_of_le (dropWhile_length_le _ cs)
  · simp
  · simp

/-- Modelled from the spec: slug of a display name. -/
def slugifySpec (name : String) : String :=
  String.mk (slugGo (name.data.map Char.toLower))

theorem collapseWsAux_true_eq (cs : List Char) :
    collapseWsAux true cs = collapseWsAux false (cs.dropWhile jsIsSpace) := by
  induction cs with
  | nil => rfl
  | cons c cs ih =>
    by_cases h : jsIsSpace c
    · rw [collapseWsAux, if_pos h, List.dropWhile_cons, if_pos h, ih]
      simp
    · rw [collapseWsAux, if_neg h, List.dropWhile_cons, if_neg h, collapseWsAux, if_neg h]

theorem strip_collapse_eq_slugGo_aux :
    ∀ (n : ℕ) (l : List Char), l.length ≤ n →
      stripNonWord (collapseWsAux false l) = slugGo l := by
  intro n
  induction n with
  | zero =>
    intro l hl
    have : l = [] := List.eq_nil_of_length_eq_zero (Nat.le_zero.mp hl)
    subst this
    simp [stripNonWord, collapseWsAux, slugGo]
  | succ n ih =>
    intro l hl
    cases l with
    | nil => simp [stripNonWord, collapseWsAux, slugGo]
    | cons c cs =>
      by_cases h : jsIsSpace c
      · rw [collapseWsAux, if_pos h, if_neg (by simp), List.singleton_append,
          collapseWsAux_true_eq, slugGo, if_pos h]
        have hkeep : (jsWordChar '-' || ('-' == '-')) = true := by decide
        rw [stripNonWord, List.filter_cons, if_pos hkeep]
        have hlen : (cs.dropWhile jsIsSpace).length ≤ n := by
          have h1 := dropWhile_length_le jsIsSpace cs
          have h2 : cs.length ≤ n := by simpa using Nat.le_of_succ_le_succ hl
          exact le_trans h1 h2
        rw [← stripNonWord]
        rw [ih (cs.dropWhile jsIsSpace) hlen]
      · rw [collapseWsAux, if_neg h, slugGo, if_neg h]
        have hcs : cs.length ≤ n := by simpa using Nat.le_of_succ_le_succ hl
        by_cases hk : (jsWordChar c || c == '-') = true
        · rw [stripNonWord, List.filter_cons, if_pos hk, ← stripNonWord, ih cs hcs, if_pos hk]
        · rw [stripNonWord, List.filter_cons, if_neg hk, ← stripNonWord, ih cs hcs,
            if_neg hk]

/-- C8: the derived slug is the display name lower-cased with whitespace
runs collapsed to single hyphens and all other non-word non-hyphen
characters stripped; in particular the slug of "General Investor
Engagement" is "general-investor-engagement". -/
theorem slug_characterisation :
    (∀ name : String, generateSlug name = slugifySpec name)
      ∧ generateSlug "General Investor Engagement" = "general-investor-engagement" := by
  constructor
  · intro name
    rw [generateSlug, slugifySpec,
      strip_collapse_eq_slugGo_aux (name.data.map Char.toLower).length _ (le_refl _)]
  · decide

/-! ## Router (handleSlugNavigation, selectHighestOrderedCategory) -/

/-- The category comparator of displayCategoryCards: weight ascending,
ties broken by name comparison. -/
def categoryLe (a b : Category) : Bool :=
  decide (a.weight < b.weight) || (decide (a.weight = b.weight) && decide (a.name ≤ b.name))

/-- displayCategoryCards sorts this.categories in place with the weight
then name comparator (a stable sort). -/
def sortCategories (cats : List Category) : List Category :=
  cats.mergeSort categoryLe

theorem categoryLe_trans (a b c : Category) :
    categoryLe a b = true → categoryLe b c = true → categoryLe a c = true := by
  simp only [categoryLe, Bool.or_eq_true, Bool.and_eq_true, decide_eq_true_eq]
  rintro (h1 | ⟨h1, h1'⟩) (h2 | ⟨h2, h2'⟩)
  · exact Or.inl (lt_trans h1 h2)
  · exact Or.inl (h2 ▸ h1)
  · exact Or.inl (h1 ▸ h2)
  · exact Or.inr ⟨h1.trans h2, le_trans h1' h2'⟩

theorem categoryLe_total (a b : Category) :
    (categoryLe a b || categoryLe b a) = true := by
  simp only [categoryLe, Bool.or_eq_true, Bool.and_eq_true, decide_eq_true_eq]
  rcases lt_trichotomy a.weight b.weight with h | h | h
  · exact Or.inl (Or.inl h)
  · rcases le_total a.name b.name with hn | hn
    · exact Or.inl (Or.inr ⟨h, hn⟩)
    · exact Or.inr (Or.inr ⟨h.symm, hn⟩)
  · exact Or.inr (Or.inl h)

/-- window.location.pathname.split('/'), character-level left-to-right. -/
def splitSlashAux : List Char → List Char → List (List Char)
  | [], acc => [acc.reverse]
  | c :: cs, acc =>
    if c = '/' then acc.reverse :: splitSlashAux cs []
    else splitSlashAux cs (c :: acc)

/-- pathname.split('/').filter(Boolean): the non-empty path segments. -/
def pathSegments (path : String) : List String :=
  ((splitSlashAux path.data []).map String.mk).filter (fun s => !(s == ""))

/-- handleSlugNavigation (docs/app.js lines 1204–1246), restricted to the
selection it performs: the resulting (categoryIndex, profileIndex) pair
into the sorted category list.  The /random branch draws random indices
and is left unmodelled (none). -/
def handleSlugNavigation (cats : List Category) (path : String) : Option (ℕ × ℕ) :=
  match pathSegments path with
  | [] => some (0, 0)
  | s :: rest =>
    if s = "random" then none
    else
      match cats.findIdx? (fun c => c.slug == s) with
      | some i =>
        match cats[i]? with
        | some cat =>
          match rest with
          | [] => some (i, 0)
          | p :: _ =>
            match cat.profiles.findIdx? (fun pr => generateSlug pr.name == p) with
            | some j => some (i, j)
            | none => some (i, 0)
        | none => some (i, 0)
      | none => some (0, 0)

/-- C7: a path whose category slug and profile slug both match selects
exactly that (category, profile) index pair; a path whose first segment
matches no category slug selects index (0, 0) of the sorted category
list, whose head is least under weight-then-name ordering. -/
theorem router_resolution (cats : List Category) (path : String) :
    (∀ (cslug pslug : String) (i j : ℕ) (cat : Category),
        pathSegments path = [cslug, pslug] →
        cslug ≠ "random" →
        (sortCategories cats).findIdx? (fun c => c.slug == cslug) = some i →
        (sortCategories cats)[i]? = some cat →
        cat.profiles.findIdx? (fun pr => generateSlug pr.name == pslug) = some j →
        handleSlugNavigation (sortCategories cats) path = some (i, j))
      ∧ (∀ (cslug : String) (rest : List String),
        pathSegments path = cslug :: rest →
        cslug ≠ "random" →
        (∀ c ∈ sortCategories cats, c.slug ≠ cslug) →
        handleSlugNavigation (sortCategories cats) path = some (0, 0)
          ∧ ∀ hd, (sortCategories cats).head? = some hd →
              ∀ c ∈ sortCategories cats, categoryLe hd c = true) := by
  constructor
  · intro cslug pslug i j cat hsegs hrand hfind hcat hpfind
    simp only [handleSlugNavigation, hsegs, if_neg hrand, hfind, hcat, hpfind]
  · intro cslug rest hsegs hrand hnone
    have hfind : (sortCategories cats).findIdx? (fun c => c.slug == cslug) = none := by
      rw [List.findIdx?_eq_none_iff]
      intro c hc
      simpa using hnone c hc
    constructor
    · simp only [handleSlugNavigation, hsegs, if_neg hrand, hfind]
    · intro hd hhd c hc
      have hsorted : List.Pairwise (fun a b => categoryLe a b = true) (sortCategories cats) :=
        List.sorted_mergeSort categoryLe_trans categoryLe_total cats
      obtain ⟨tl, htl⟩ : ∃ tl, sortCategories cats = hd :: tl := by
        cases h : sortCategories cats with
        | nil => rw [h] at hhd; simp at hhd
        | cons x xs =>
          rw [h] at hhd
          simp only [List.head?_cons, Option.some.injEq] at hhd
          exact ⟨xs, by rw [hhd]⟩
      rw [htl] at hc hsorted
      rcases List.mem_cons.mp hc with rfl | hc'
      · simp [categoryLe]
      · exact (List.pairwise_cons.mp hsorted).1 c hc'

/-- A two-category catalog for exercising the router. -/
def routerCatA : Category :=
  ⟨"Alpha", "alpha", 1, [⟨"First P", []⟩, ⟨"General Investor Engagement", []⟩]⟩

/-- Second category of the router catalog, with the larger weight. -/
def routerCatB : Category :=
  ⟨"Beta", "beta", 2, [⟨"Solo", []⟩]⟩

/-- C7 witness: on the sorted two-category catalog, the path
/alpha/general-investor-engagement resolves to category 0, profile 1, and
the path /nonexistent resolves to (0, 0) with the head of the sorted list
least under the ordering. -/
theorem router_resolution_witness :
    handleSlugNavigation (sortCategories [routerCatB, routerCatA])
        "/alpha/general-investor-engagement" = some (0, 1)
      ∧ (handleSlugNavigation (sortCategories [routerCatB, routerCatA]) "/nonexistent"
            = some (0, 0)
          ∧ ∀ hd, (sortCategories [routerCatB, routerCatA]).head? = some hd →
              ∀ c ∈ sortCategories [routerCatB, routerCatA], categoryLe hd c = true) := by
  have hs : sortCategories [routerCatB, routerCatA] = [routerCatA, routerCatB] := by
    simp [sortCategories, List.mergeSort, categoryLe, routerCatA, routerCatB]
  refine ⟨?_, ?_⟩
  · exact (router_resolution [routerCatB, routerCatA] "/alpha/general-investor-engagement").1
      "alpha" "general-investor-engagement" 0 1 routerCatA
      (by decide) (by decide)
      (by rw [hs]; decide) (by rw [hs]; rfl) (by decide)
  · exact (router_resolution [routerCatB, routerCatA] "/nonexistent").2
      "nonexistent" [] (by decide) (by decide)
      (by intro c hc; rw [hs] at hc; fin_cases hc <;> decide)

end LikelihoodCalc

namespace LikelihoodCalc

/-! Digits -/

def digitChar : ℕ → Char
  | 0 => '0' | 1 => '1' | 2 => '2' | 3 => '3' | 4 => '4'
  | 5 => '5' | 6 => '6' | 7 => '7' | 8 => '8' | 9 => '9'
  | _ => '0'

def digitVal (c : Char) : ℕ := c.toNat - 48

def natToDigitsAux : ℕ → ℕ → List Char
  | 0, _ => []
  | fuel + 1, n =>
    if n < 10 then [digitChar n]
    else natToDigitsAux fuel (n / 10) ++ [digitChar (n % 10)]

def natToDigits (n : ℕ) : List Char := natToDigitsAux (n + 1) n

def digitsToNat (ds : List Char) : ℕ := ds.foldl (fun a c => a * 10 + digitVal c) 0

theorem digitVal_digitChar {d : ℕ} (hd : d < 10) : digitVal (digitChar d) = d := by
  interval_cases d <;> rfl

theorem isDigit_digitChar {d : ℕ} (hd : d < 10) : (digitChar d).isDigit = true := by
  interval_cases d <;> rfl

theorem digitsToNat_append (ds : List Char) (c : Char) :
    digitsToNat (ds ++ [c]) = 10 * digitsToNat ds + digitVal c := by
  simp [digitsToNat, List.foldl_append]
  ring

theorem natToDigitsAux_spec :
    ∀ (fuel n : ℕ), n ≤ fuel →
      digitsToNat (natToDigitsAux (fuel + 1) n) = n
        ∧ natToDigitsAux (fuel + 1) n ≠ []
        ∧ ∀ c ∈ natToDigitsAux (fuel + 1) n, c.isDigit = true := by
  intro fuel
  induction fuel with
  | zero =>
    intro n hn
    have : n = 0 := Nat.le_zero.mp hn
    subst this
    refine ⟨rfl, by simp [natToDigitsAux], ?_⟩
    intro c hc
    simp [natToDigitsAux] at hc
    subst hc
    rfl
  | succ fuel ih =>
    intro n hn
    by_cases h : n < 10
    · rw [natToDigitsAux, if_pos h]
      refine ⟨?_, by simp, ?_⟩
      · simp [digitsToNat, digitVal_digitChar h]
      · intro c hc
        simp at hc
        subst hc
        exact isDigit_digitChar h
    · rw [natToDigitsAux, if_neg h]
      have hlt : n / 10 ≤ fuel := by omega
      obtain ⟨hval, hne, hdig⟩ := ih (n / 10) hlt
      refine ⟨?_, by simp, ?_⟩
      · rw [digitsToNat_append, hval, digitVal_digitChar (Nat.mod_lt n (by norm_num))]
        omega
      · intro c hc
        rcases List.mem_append.mp hc with hc1 | hc2
        · exact hdig c hc1
        · simp at hc2
          subst hc2
          exact isDigit_digitChar (Nat.mod_lt n (by norm_num))

theorem natToDigits_spec (n : ℕ) :
    digitsToNat (natToDigits n) = n
      ∧ natToDigits n ≠ []
      ∧ ∀ c ∈ natToDigits n, c.isDigit = true :=
  natToDigitsAux_spec n n (le_refl n)

theorem digitsToNat_replicate_zero (k : ℕ) (ds : List Char) :
    digitsToNat (List.replicate k '0' ++ ds) = digitsToNat ds := by
  have hz : ∀ j : ℕ, (List.replicate j '0').foldl (fun a c => a * 10 + digitVal c) 0 = 0 := by
    intro j
    induction j with
    | zero => rfl
    | succ j ihj => simpa [List.replicate_succ, digitVal] using ihj
  rw [digitsToNat, List.foldl_append, hz k]
  rfl

end LikelihoodCalc

namespace LikelihoodCalc

/-! Number formatting and parsing -/

/-- Decimal digit string of m / 10^e: the digits of the magnitude, padded
with leading zeros so a decimal point can sit e digits from the right,
with the point inserted when e is nonzero. -/
def numBody (m : ℤ) (e : ℕ) : List Char :=
  let ds := natToDigits m.natAbs
  let pad := if ds.length ≤ e then List.replicate (e + 1 - ds.length) '0' ++ ds else ds
  if e = 0 then pad
  else pad.take (pad.length - e) ++ '.' :: pad.drop (pad.length - e)

/-- JSON number text of the decimal m / 10^e. -/
def numChars (m : ℤ) (e : ℕ) : List Char :=
  if m < 0 then '-' :: numBody m e else numBody m e

def parseNumCore (neg : Bool) (cs1 : List Char) : Option ((ℤ × ℕ) × List Char) :=
  let ids := cs1.takeWhile Char.isDigit
  let cs2 := cs1.dropWhile Char.isDigit
  if ids.isEmpty then none
  else if cs2.head? = some '.' then
    let cs3 := cs2.tail
    let fds := cs3.takeWhile Char.isDigit
    let cs4 := cs3.dropWhile Char.isDigit
    if fds.isEmpty then none
    else
      some ((if neg then -(digitsToNat (ids ++ fds) : ℤ) else (digitsToNat (ids ++ fds) : ℤ),
        fds.length), cs4)
  else
    some ((if neg then -(digitsToNat ids : ℤ) else (digitsToNat ids : ℤ), 0), cs2)

/-- JSON number parsing: optional minus sign, integer digits, optional
dot and fraction digits. -/
def parseNum (cs : List Char) : Option ((ℤ × ℕ) × List Char) :=
  match cs with
  | [] => none
  | c :: rest => if c = '-' then parseNumCore true rest else parseNumCore false (c :: rest)

/-- The characters that may legally follow a JSON value in this codec:
end of input, comma, or a closing bracket. -/
def delimOk (rest : List Char) : Bool :=
  match rest with
  | [] => true
  | c :: _ => (c == ',') || (c == ']') || (c == '\x7d')

theorem span_digits :
    ∀ (ds rest : List Char), (∀ c ∈ ds, c.isDigit = true) →
      (∀ c, rest.head? = some c → c.isDigit = false) →
      (ds ++ rest).takeWhile Char.isDigit = ds
        ∧ (ds ++ rest).dropWhile Char.isDigit = rest := by
  intro ds
  induction ds with
  | nil =>
    intro rest _ hrest
    cases rest with
    | nil => exact ⟨rfl, rfl⟩
    | cons c t =>
      have := hrest c rfl
      constructor
      · simp [List.takeWhile_cons, this]
      · simp [List.dropWhile_cons, this]
  | cons d ds ih =>
    intro rest hds hrest
    have hd : d.isDigit = true := hds d (by simp)
    obtain ⟨h1, h2⟩ := ih rest (fun c hc => hds c (by simp [hc])) hrest
    constructor
    · simp [List.takeWhile_cons, hd, h1]
    · simp [List.dropWhile_cons, hd, h2]

theorem delimOk_head_not_digit {rest : List Char} (h : delimOk rest = true) :
    ∀ c, rest.head? = some c → c.isDigit = false := by
  intro c hc
  cases rest with
  | nil => simp at hc
  | cons r t =>
    simp only [List.head?_cons, Option.some.injEq] at hc
    subst hc
    simp only [delimOk, Bool.or_eq_true, beq_iff_eq] at h
    rcases h with (h | h) | h <;> (subst h; rfl)

theorem delimOk_head_not_dot {rest : List Char} (h : delimOk rest = true) :
    rest.head? ≠ some '.' := by
  intro hc
  cases rest with
  | nil => simp at hc
  | cons r t =>
    simp only [List.head?_cons, Option.some.injEq] at hc
    subst hc
    simp [delimOk] at h

theorem isDigit_ne (c : Char) (h : c.isDigit = true) :
    c ≠ '-' ∧ c ≠ 'n' ∧ c ≠ 't' ∧ c ≠ 'f' ∧ c ≠ '"' ∧ c ≠ '[' ∧ c ≠ '\x7b'
      ∧ c ≠ ']' ∧ c ≠ '\x7d' ∧ c ≠ ',' ∧ c ≠ '.' ∧ c ≠ ':' := by
  refine ⟨?_, ?_, ?_, ?_, ?_, ?_, ?_, ?_, ?_, ?_, ?_, ?_⟩ <;>
    (intro he; subst he; exact absurd h (by decide))

/-- The padded digit list underlying numBody. -/
def numPad (m : ℤ) (e : ℕ) : List Char :=
  let ds := natToDigits m.natAbs
  if ds.length ≤ e then List.replicate (e + 1 - ds.length) '0' ++ ds else ds

theorem numPad_spec (m : ℤ) (e : ℕ) :
    (∀ c ∈ numPad m e, c.isDigit = true)
      ∧ digitsToNat (numPad m e) = m.natAbs
      ∧ e < (numPad m e).length := by
  obtain ⟨hval, hne, hdig⟩ := natToDigits_spec m.natAbs
  have hlen0 : (natToDigits m.natAbs).length ≠ 0 := by
    intro h0
    exact hne (List.eq_nil_of_length_eq_zero h0)
  unfold numPad
  by_cases hle : (natToDigits m.natAbs).length ≤ e
  · rw [if_pos hle]
    refine ⟨?_, ?_, ?_⟩
    · intro c hc
      rcases List.mem_append.mp hc with hc1 | hc2
      · have : c = '0' := List.eq_of_mem_replicate hc1
        subst this
        rfl
      · exact hdig c hc2
    · rw [digitsToNat_replicate_zero, hval]
    · simp only [List.length_append, List.length_replicate]
      omega
  · rw [if_neg hle]
    exact ⟨hdig, hval, by omega⟩

theorem numBody_eq (m : ℤ) (e : ℕ) :
    numBody m e
      = if e = 0 then numPad m e
        else (numPad m e).take ((numPad m e).length - e)
          ++ '.' :: (numPad m e).drop ((numPad m e).length - e) := rfl

theorem parseNumCore_numBody (m : ℤ) (e : ℕ) (neg : Bool) (rest : List Char)
    (hrest : delimOk rest = true) :
    parseNumCore neg (numBody m e ++ rest)
      = some ((if neg then -(m.natAbs : ℤ) else (m.natAbs : ℤ), e), rest) := by
  obtain ⟨hpadDig, hpadVal, hpadLen⟩ := numPad_spec m e
  have hpadNe : numPad m e ≠ [] := by
    intro h0
    rw [h0] at hpadLen
    simp at hpadLen
  rw [numBody_eq]
  by_cases he : e = 0
  · subst he
    rw [if_pos rfl]
    obtain ⟨ht, hdw⟩ := span_digits (numPad m 0) rest hpadDig (delimOk_head_not_digit hrest)
    rw [parseNumCore]
    simp only [ht, hdw]
    rw [if_neg (by simp [List.isEmpty_iff, hpadNe]), if_neg (delimOk_head_not_dot hrest),
      hpadVal]
  · rw [if_neg he]
    have htakeDig : ∀ c ∈ (numPad m e).take ((numPad m e).length - e), c.isDigit = true :=
      fun c hc => hpadDig c (List.mem_of_mem_take hc)
    have hdropDig : ∀ c ∈ (numPad m e).drop ((numPad m e).length - e), c.isDigit = true :=
      fun c hc => hpadDig c (List.mem_of_mem_drop hc)
    have htakeLen : ((numPad m e).take ((numPad m e).length - e)).length
        = (numPad m e).length - e := by
      rw [List.length_take]
      omega
    have htakeNe : (numPad m e).take ((numPad m e).length - e) ≠ [] := by
      intro h0
      rw [h0] at htakeLen
      simp at htakeLen
      omega
    have hdropLen : ((numPad m e).drop ((numPad m e).length - e)).length = e := by
      rw [List.length_drop]
      omega
    have hdropNe : (numPad m e).drop ((numPad m e).length - e) ≠ [] := by
      intro h0
      rw [h0] at hdropLen
      simp at hdropLen
      omega
    obtain ⟨ht1, hd1⟩ := span_digits ((numPad m e).take ((numPad m e).length - e))
      ('.' :: ((numPad m e).drop ((numPad m e).length - e) ++ rest)) htakeDig
      (by
        intro c hc
        simp only [List.head?_cons, Option.some.injEq] at hc
        subst hc
        rfl)
    obtain ⟨ht2, hd2⟩ := span_digits ((numPad m e).drop ((numPad m e).length - e)) rest
      hdropDig (delimOk_head_not_digit hrest)
    rw [List.append_assoc, List.cons_append]
    rw [parseNumCore]
    simp only [ht1, hd1, List.head?_cons, List.tail_cons, ht2, hd2]
    rw [if_neg (by simp [List.isEmpty_iff, htakeNe]), if_pos trivial,
      if_neg (by simp [List.isEmpty_iff, hdropNe])]
    rw [List.take_append_drop, hpadVal, hdropLen]

theorem numBody_head (m : ℤ) (e : ℕ) :
    ∃ b0 bt, numBody m e = b0 :: bt ∧ b0.isDigit = true := by
  obtain ⟨hpadDig, _, hpadLen⟩ := numPad_spec m e
  have hpadNe : numPad m e ≠ [] := by
    intro h0
    rw [h0] at hpadLen
    simp at hpadLen
  rw [numBody_eq]
  by_cases he : e = 0
  · subst he
    rw [if_pos rfl]
    obtain ⟨b0, bt, hb⟩ := List.exists_cons_of_ne_nil hpadNe
    exact ⟨b0, bt, hb, hpadDig b0 (by rw [hb]; simp)⟩
  · rw [if_neg he]
    have htakeLen : ((numPad m e).take ((numPad m e).length - e)).length
        = (numPad m e).length - e := by
      rw [List.length_take]
      omega
    have htakeNe : (numPad m e).take ((numPad m e).length - e) ≠ [] := by
      intro h0
      rw [h0] at htakeLen
      simp at htakeLen
      omega
    obtain ⟨b0, bt, hb⟩ := List.exists_cons_of_ne_nil htakeNe
    refine ⟨b0, bt ++ '.' :: (numPad m e).drop ((numPad m e).length - e), ?_, ?_⟩
    · rw [hb]
      simp
    · exact hpadDig b0 (List.mem_of_mem_take (by rw [hb]; simp))

theorem parseNum_numChars (m : ℤ) (e : ℕ) (rest : List Char)
    (hrest : delimOk rest = true) :
    parseNum (numChars m e ++ rest) = some ((m, e), rest) := by
  rw [numChars]
  by_cases hm : m < 0
  · rw [if_pos hm, List.cons_append, parseNum, if_pos rfl,
      parseNumCore_numBody m e true rest hrest]
    have : -(m.natAbs : ℤ) = m := by omega
    rw [if_pos rfl, this]
  · rw [if_neg hm]
    obtain ⟨b0, bt, hb, hbdig⟩ := numBody_head m e
    rw [hb, List.cons_append, parseNum, if_neg (isDigit_ne b0 hbdig).1, ← List.cons_append,
      ← hb, parseNumCore_numBody m e false rest hrest]
    have : (m.natAbs : ℤ) = m := by omega
    rw [this]
    rfl

/-- Head shape of a number text: a minus sign or a digit. -/
theorem numChars_head (m : ℤ) (e : ℕ) :
    ∃ c t, numChars m e = c :: t ∧ (c = '-' ∨ c.isDigit = true) := by
  rw [numChars]
  by_cases hm : m < 0
  · rw [if_pos hm]
    exact ⟨'-', numBody m e, rfl, Or.inl rfl⟩
  · rw [if_neg hm]
    obtain ⟨b0, bt, hb, hbdig⟩ := numBody_head m e
    exact ⟨b0, bt, hb, Or.inr hbdig⟩

end LikelihoodCalc

namespace LikelihoodCalc

/-! String escaping -/

/-- JSON string escaping for the quote and backslash characters. -/
def escapeChar (c : Char) : List Char :=
  if c = '"' then ['\\', '"'] else if c = '\\' then ['\\', '\\'] else [c]

/-- JSON string text: quoted, with quotes and backslashes escaped. -/
def stringChars (s : String) : List Char :=
  '"' :: ((s.data.map escapeChar).flatten ++ ['"'])

/-- Read a string body up to the closing quote, unescaping backslash
pairs; the flag records a pending backslash. -/
def parseStringAux : Bool → List Char → Option (List Char × List Char)
  | _, [] => none
  | true, c :: rest => (parseStringAux false rest).map (fun p => (c :: p.1, p.2))
  | false, c :: rest =>
    if c = '\\' then parseStringAux true rest
    else if c = '"' then some ([], rest)
    else (parseStringAux false rest).map (fun p => (c :: p.1, p.2))

def parseStringBody (cs : List Char) : Option (List Char × List Char) :=
  parseStringAux false cs

theorem parseStringBody_escape :
    ∀ (s rest : List Char),
      parseStringBody ((s.map escapeChar).flatten ++ '"' :: rest) = some (s, rest) := by
  intro s
  induction s with
  | nil =>
    intro rest
    simp only [List.map_nil, List.flatten_nil, List.nil_append]
    simp only [parseStringBody]
    rw [parseStringAux, if_neg (by decide), if_pos rfl]
  | cons c s ih =>
    intro rest
    by_cases hq : c = '"'
    · subst hq
      have he : escapeChar '"' = ['\\', '"'] := rfl
      simp only [List.map_cons, List.flatten_cons, he, List.cons_append, List.append_assoc,
        List.nil_append]
      simp only [parseStringBody]
      rw [parseStringAux, if_pos rfl, parseStringAux]
      simp only [parseStringBody] at ih
      rw [ih rest]
      rfl
    · by_cases hb : c = '\\'
      · subst hb
        have he : escapeChar '\\' = ['\\', '\\'] := rfl
        simp only [List.map_cons, List.flatten_cons, he, List.cons_append, List.append_assoc,
          List.nil_append]
        simp only [parseStringBody]
        rw [parseStringAux, if_pos rfl, parseStringAux]
        simp only [parseStringBody] at ih
        rw [ih rest]
        rfl
      · have he : escapeChar c = [c] := by
          rw [escapeChar, if_neg hq, if_neg hb]
        simp only [List.map_cons, List.flatten_cons, he, List.cons_append,
          List.singleton_append, List.nil_append]
        simp only [parseStringBody]
        rw [parseStringAux, if_neg hb, if_neg hq]
        simp only [parseStringBody] at ih
        rw [ih rest]
        rfl

end LikelihoodCalc

namespace LikelihoodCalc

/-! JSON values.  JavaScript objects are ordered string-keyed field
lists; numbers are decimals m / 10^e as read and written in the stored
texts. -/

mutual
inductive Json where
  | jnull : Json
  | jbool : Bool → Json
  | jnum : ℤ → ℕ → Json
  | jstr : String → Json
  | jarr : JsonList → Json
  | jobj : JsonFields → Json
deriving DecidableEq
inductive JsonList where
  | nil : JsonList
  | cons : Json → JsonList → JsonList
deriving DecidableEq
inductive JsonFields where
  | nil : JsonFields
  | cons : String → Json → JsonFields → JsonFields
deriving DecidableEq
end

mutual
/-- JSON.stringify, character list form. -/
def jsonChars : Json → List Char
  | .jnull => ['n', 'u', 'l', 'l']
  | .jbool true => ['t', 'r', 'u', 'e']
  | .jbool false => ['f', 'a', 'l', 's', 'e']
  | .jnum m e => numChars m e
  | .jstr s => stringChars s
  | .jarr xs => '[' :: jsonListChars xs
  | .jobj fs => '\x7b' :: jsonFieldsChars fs
/-- Array elements with separating commas and the closing bracket. -/
def jsonListChars : JsonList → List Char
  | .nil => [']']
  | .cons x .nil => jsonChars x ++ [']']
  | .cons x (.cons y ys) => jsonChars x ++ ',' :: jsonListChars (.cons y ys)
/-- Object fields with separating commas and the closing brace. -/
def jsonFieldsChars : JsonFields → List Char
  | .nil => ['\x7d']
  | .cons k v .nil => stringChars k ++ ':' :: jsonChars v ++ ['\x7d']
  | .cons k v (.cons k2 v2 fs) =>
      stringChars k ++ ':' :: jsonChars v ++ ',' :: jsonFieldsChars (.cons k2 v2 fs)
end

def jsonStringify (v : Json) : String := String.mk (jsonChars v)

/-- Fixed keyword tail (null / true / false) after its first character. -/
def parseKeyword (kw : List Char) (res : Json) (cs : List Char) : Option (Json × List Char) :=
  if cs.take kw.length = kw then some (res, cs.drop kw.length) else none

mutual
/-- Recursive-descent JSON value parser; the fuel bounds the recursion
and is decremented at each recursive step. -/
def parseValue : ℕ → List Char → Option (Json × List Char)
  | 0, _ => none
  | fuel + 1, cs =>
    match cs with
    | [] => none
    | c :: rest =>
      if c = 'n' then parseKeyword ['u', 'l', 'l'] .jnull rest
      else if c = 't' then parseKeyword ['r', 'u', 'e'] (.jbool true) rest
      else if c = 'f' then parseKeyword ['a', 'l', 's', 'e'] (.jbool false) rest
      else if c = '"' then
        (parseStringBody rest).bind (fun sr => some (.jstr (String.mk sr.1), sr.2))
      else if c = '[' then
        if rest.head? = some ']' then some (.jarr .nil, rest.tail)
        else (parseElems fuel rest).bind (fun xr => some (.jarr xr.1, xr.2))
      else if c = '\x7b' then
        if rest.head? = some '\x7d' then some (.jobj .nil, rest.tail)
        else (parseFields fuel rest).bind (fun fr => some (.jobj fr.1, fr.2))
      else
        (parseNum (c :: rest)).bind (fun nr => some (.jnum nr.1.1 nr.1.2, nr.2))
/-- Non-empty comma-separated element list up to the closing bracket. -/
def parseElems : ℕ → List Char → Option (JsonList × List Char)
  | 0, _ => none
  | fuel + 1, cs =>
    (parseValue fuel cs).bind (fun vr =>
      if vr.2.head? = some ',' then
        (parseElems fuel vr.2.tail).bind (fun xr => some (.cons vr.1 xr.1, xr.2))
      else if vr.2.head? = some ']' then some (.cons vr.1 .nil, vr.2.tail)
      else none)
/-- Non-empty comma-separated field list up to the closing brace. -/
def parseFields : ℕ → List Char → Option (JsonFields × List Char)
  | 0, _ => none
  | fuel + 1, cs =>
    match cs with
    | [] => none
    | c :: rest =>
      if c = '"' then
        (parseStringBody rest).bind (fun kr =>
          if kr.2.head? = some ':' then
            (parseValue fuel kr.2.tail).bind (fun vr =>
              if vr.2.head? = some ',' then
                (parseFields fuel vr.2.tail).bind (fun fr =>
                  some (.cons (String.mk kr.1) vr.1 fr.1, fr.2))
              else if vr.2.head? = some '\x7d' then
                some (.cons (String.mk kr.1) vr.1 .nil, vr.2.tail)
              else none)
          else none)
      else none
end

/-- JSON.parse: parse a complete value consuming the whole input. -/
def jsonParse (s : String) : Option Json :=
  match parseValue (s.data.length + 1) s.data with
  | some (v, []) => some v
  | _ => none

mutual
/-- Fuel sufficient to parse the printed form of a value. -/
def jfuel : Json → ℕ
  | .jnull => 1
  | .jbool _ => 1
  | .jnum _ _ => 1
  | .jstr _ => 1
  | .jarr xs => 1 + jlistFuel xs
  | .jobj fs => 1 + jfieldsFuel fs
def jlistFuel : JsonList → ℕ
  | .nil => 0
  | .cons x xs => 1 + jfuel x + jlistFuel xs
def jfieldsFuel : JsonFields → ℕ
  | .nil => 0
  | .cons _ v fs => 1 + jfuel v + jfieldsFuel fs
end

theorem jsonChars_head (v : Json) :
    ∃ c t, jsonChars v = c :: t
      ∧ (c = 'n' ∨ c = 't' ∨ c = 'f' ∨ c = '"' ∨ c = '[' ∨ c = '\x7b'
          ∨ c = '-' ∨ c.isDigit = true) := by
  cases v with
  | jnull => exact ⟨'n', ['u', 'l', 'l'], rfl, Or.inl rfl⟩
  | jbool b =>
    cases b with
    | true => exact ⟨'t', ['r', 'u', 'e'], rfl, Or.inr (Or.inl rfl)⟩
    | false => exact ⟨'f', ['a', 'l', 's', 'e'], rfl, Or.inr (Or.inr (Or.inl rfl))⟩
  | jnum m e =>
    obtain ⟨c, t, hct, hs⟩ := numChars_head m e
    refine ⟨c, t, by simp only [jsonChars, hct], ?_⟩
    rcases hs with h | h
    · exact Or.inr (Or.inr (Or.inr (Or.inr (Or.inr (Or.inr (Or.inl h))))))
    · exact Or.inr (Or.inr (Or.inr (Or.inr (Or.inr (Or.inr (Or.inr h))))))
  | jstr s =>
    exact ⟨'"', (s.data.map escapeChar).flatten ++ ['"'], rfl,
      Or.inr (Or.inr (Or.inr (Or.inl rfl)))⟩
  | jarr xs =>
    exact ⟨'[', jsonListChars xs, rfl, Or.inr (Or.inr (Or.inr (Or.inr (Or.inl rfl))))⟩
  | jobj fs =>
    exact ⟨'\x7b', jsonFieldsChars fs, rfl,
      Or.inr (Or.inr (Or.inr (Or.inr (Or.inr (Or.inl rfl)))))⟩

theorem jsonChars_head_ne (v : Json) :
    ∃ c t, jsonChars v = c :: t ∧ c ≠ ']' ∧ c ≠ '\x7d' := by
  obtain ⟨c, t, hct, hs⟩ := jsonChars_head v
  refine ⟨c, t, hct, ?_, ?_⟩ <;>
    (rcases hs with h | h | h | h | h | h | h | h <;>
      first
        | (subst h; decide)
        | (intro he; subst he; exact absurd h (by decide)))

end LikelihoodCalc

namespace LikelihoodCalc

mutual
/-- Parsing the printed form of a value, followed by a legal delimiter,
recovers the value exactly. -/
theorem parseValue_chars (v : Json) :
    ∀ fuel : ℕ, jfuel v ≤ fuel → ∀ rest : List Char, delimOk rest = true →
      parseValue fuel (jsonChars v ++ rest) = some (v, rest) := by
  cases v with
  | jnull =>
    intro fuel hf rest _
    cases fuel with
    | zero => exact absurd hf (by simp [jfuel])
    | succ f => rfl
  | jbool b =>
    intro fuel hf rest _
    cases fuel with
    | zero => exact absurd hf (by simp [jfuel])
    | succ f => cases b <;> rfl
  | jnum m e =>
    intro fuel hf rest hrest
    cases fuel with
    | zero => exact absurd hf (by simp [jfuel])
    | succ f =>
      obtain ⟨c, t, hct, hs⟩ := numChars_head m e
      have hne : c ≠ 'n' ∧ c ≠ 't' ∧ c ≠ 'f' ∧ c ≠ '"' ∧ c ≠ '[' ∧ c ≠ '\x7b' := by
        rcases hs with h | h
        · subst h
          exact ⟨by decide, by decide, by decide, by decide, by decide, by decide⟩
        · obtain ⟨_, h1, h2, h3, h4, h5, h6, _⟩ := isDigit_ne c h
          exact ⟨h1, h2, h3, h4, h5, h6⟩
      show parseValue (f + 1) (numChars m e ++ rest) = some (.jnum m e, rest)
      rw [hct, List.cons_append, parseValue]
      rw [if_neg hne.1, if_neg hne.2.1, if_neg hne.2.2.1, if_neg hne.2.2.2.1,
        if_neg hne.2.2.2.2.1, if_neg hne.2.2.2.2.2]
      rw [← List.cons_append, ← hct, parseNum_numChars m e rest hrest]
      rfl
  | jstr s =>
    intro fuel hf rest _
    cases fuel with
    | zero => exact absurd hf (by simp [jfuel])
    | succ f =>
      show parseValue (f + 1) (stringChars s ++ rest) = some (.jstr s, rest)
      rw [stringChars, List.cons_append, parseValue]
      rw [if_neg (by decide), if_neg (by decide), if_neg (by decide), if_pos rfl]
      rw [List.append_assoc, List.singleton_append, parseStringBody_escape s.data rest]
      rfl
  | jarr xs =>
    cases xs with
    | nil =>
      intro fuel hf rest _
      cases fuel with
      | zero => exact absurd hf (by simp [jfuel])
      | succ f => rfl
    | cons x xs2 =>
      intro fuel hf rest _
      cases fuel with
      | zero => exact absurd hf (by simp [jfuel, jlistFuel])
      | succ f =>
        obtain ⟨c, t, hct, hcne1, _⟩ := jsonChars_head_ne x
        have hchars : ∃ A, jsonListChars (.cons x xs2) = jsonChars x ++ A := by
          cases xs2 with
          | nil => exact ⟨[']'], by simp [jsonListChars]⟩
          | cons y ys => exact ⟨',' :: jsonListChars (.cons y ys), by simp [jsonListChars]⟩
        obtain ⟨A, hA⟩ := hchars
        have hhead : (jsonListChars (.cons x xs2) ++ rest).head? = some c := by
          rw [hA, hct]
          simp
        show parseValue (f + 1) (('[' :: jsonListChars (.cons x xs2)) ++ rest)
            = some (.jarr (.cons x xs2), rest)
        rw [List.cons_append, parseValue]
        rw [if_neg (by decide), if_neg (by decide), if_neg (by decide), if_neg (by decide),
          if_pos rfl]
        rw [hhead]
        rw [if_neg (by simp [hcne1])]
        have hfe : jlistFuel (.cons x xs2) ≤ f := by
          simp only [jfuel] at hf
          omega
        rw [parseElems_chars (.cons x xs2) (by simp) f hfe rest]
        rfl
  | jobj fs =>
    cases fs with
    | nil =>
      intro fuel hf rest _
      cases fuel with
      | zero => exact absurd hf (by simp [jfuel])
      | succ f => rfl
    | cons k v fs2 =>
      intro fuel hf rest _
      cases fuel with
      | zero => exact absurd hf (by simp [jfuel, jfieldsFuel])
      | succ f =>
        have hchars : ∃ A, jsonFieldsChars (.cons k v fs2) = stringChars k ++ A := by
          cases fs2 with
          | nil => exact ⟨':' :: jsonChars v ++ ['\x7d'], by simp [jsonFieldsChars]⟩
          | cons k2 v2 fs3 =>
            exact ⟨':' :: jsonChars v ++ ',' :: jsonFieldsChars (.cons k2 v2 fs3),
              by simp [jsonFieldsChars]⟩
        obtain ⟨A, hA⟩ := hchars
        have hhead : (jsonFieldsChars (.cons k v fs2) ++ rest).head? = some '"' := by
          rw [hA, stringChars]
          simp
        show parseValue (f + 1) (('\x7b' :: jsonFieldsChars (.cons k v fs2)) ++ rest)
            = some (.jobj (.cons k v fs2), rest)
        rw [List.cons_append, parseValue]
        rw [if_neg (by decide), if_neg (by decide), if_neg (by decide), if_neg (by decide),
          if_neg (by decide), if_pos rfl]
        rw [hhead]
        rw [if_neg (by decide)]
        have hfe : jfieldsFuel (.cons k v fs2) ≤ f := by
          simp only [jfuel] at hf
          omega
        rw [parseFields_chars (.cons k v fs2) (by simp) f hfe rest]
        rfl

/-- Parsing the printed form of a non-empty element list recovers it. -/
theorem parseElems_chars (xs : JsonList) :
    xs ≠ .nil → ∀ fuel : ℕ, jlistFuel xs ≤ fuel → ∀ rest : List Char,
      parseElems fuel (jsonListChars xs ++ rest) = some (xs, rest) := by
  cases xs with
  | nil => intro h; exact absurd rfl h
  | cons x xs2 =>
    intro _ fuel hf rest
    cases fuel with
    | zero => exact absurd hf (by simp [jlistFuel])
    | succ f =>
      have hfx : jfuel x ≤ f := by
        simp only [jlistFuel] at hf
        omega
      cases xs2 with
      | nil =>
        show parseElems (f + 1) ((jsonChars x ++ [']']) ++ rest) = some (.cons x .nil, rest)
        rw [List.append_assoc, List.singleton_append, parseElems]
        rw [parseValue_chars x f hfx (']' :: rest) rfl]
        simp only [Option.some_bind, List.head?_cons, List.tail_cons]
        rw [if_neg (by decide), if_pos trivial]
      | cons y ys =>
        show parseElems (f + 1) ((jsonChars x ++ ',' :: jsonListChars (.cons y ys)) ++ rest)
            = some (.cons x (.cons y ys), rest)
        rw [List.append_assoc, List.cons_append, parseElems]
        rw [parseValue_chars x f hfx (',' :: (jsonListChars (.cons y ys) ++ rest)) rfl]
        simp only [Option.some_bind, List.head?_cons, List.tail_cons]
        rw [if_pos trivial]
        have hfe : jlistFuel (.cons y ys) ≤ f := by
          simp only [jlistFuel] at hf ⊢
          omega
        rw [parseElems_chars (.cons y ys) (by simp) f hfe rest]
        rfl

/-- Parsing the printed form of a non-empty field list recovers it. -/
theorem parseFields_chars (fs : JsonFields) :
    fs ≠ .nil → ∀ fuel : ℕ, jfieldsFuel fs ≤ fuel → ∀ rest : List Char,
      parseFields fuel (jsonFieldsChars fs ++ rest) = some (fs, rest) := by
  cases fs with
  | nil => intro h; exact absurd rfl h
  | cons k v fs2 =>
    intro _ fuel hf rest
    cases fuel with
    | zero => exact absurd hf (by simp [jfieldsFuel])
    | succ f =>
      have hfv : jfuel v ≤ f := by
        simp only [jfieldsFuel] at hf
        omega
      cases fs2 with
      | nil =>
        show parseFields (Nat.succ f)
            ((stringChars k ++ ':' :: jsonChars v ++ ['\x7d']) ++ rest)
            = some (.cons k v .nil, rest)
        rw [stringChars, List.cons_append, List.cons_append]
        refine Eq.trans (parseFields.eq_3 f '"' _) ?_
        rw [if_pos rfl]
        simp only [List.append_eq, List.nil_append, List.cons_append, List.append_assoc]
        rw [parseStringBody_escape k.data]
        simp only [Option.some_bind, List.head?_cons, List.tail_cons]
        rw [if_pos trivial]
        rw [parseValue_chars v f hfv ('\x7d' :: rest) rfl]
        simp only [Option.some_bind, List.head?_cons, List.tail_cons]
        rw [if_neg (by decide), if_pos trivial]
      | cons k2 v2 fs3 =>
        show parseFields (Nat.succ f)
            ((stringChars k ++ ':' :: jsonChars v ++ ',' :: jsonFieldsChars (.cons k2 v2 fs3))
              ++ rest)
            = some (.cons k v (.cons k2 v2 fs3), rest)
        rw [stringChars, List.cons_append, List.cons_append]
        refine Eq.trans (parseFields.eq_3 f '"' _) ?_
        rw [if_pos rfl]
        simp only [List.append_eq, List.nil_append, List.cons_append, List.append_assoc]
        rw [parseStringBody_escape k.data]
        simp only [Option.some_bind, List.head?_cons, List.tail_cons]
        rw [if_pos trivial]
        rw [parseValue_chars v f hfv
          (',' :: (jsonFieldsChars (.cons k2 v2 fs3) ++ rest)) rfl]
        simp only [Option.some_bind, List.head?_cons, List.tail_cons]
        rw [if_pos trivial]
        have hfe : jfieldsFuel (.cons k2 v2 fs3) ≤ f := by
          simp only [jfieldsFuel] at hf ⊢
          omega
        rw [parseFields_chars (.cons k2 v2 fs3) (by simp) f hfe rest]
        rfl
end

end LikelihoodCalc

namespace LikelihoodCalc
end LikelihoodCalc


namespace LikelihoodCalc

theorem data_mk (l : List Char) : (String.mk l).data = l := rfl

mutual
theorem jfuel_le (v : Json) : jfuel v ≤ (jsonChars v).length := by
  cases v with
  | jnull => simp [jfuel, jsonChars]
  | jbool b => cases b <;> simp [jfuel, jsonChars]
  | jnum m e =>
    obtain ⟨c, t, hct, _⟩ := numChars_head m e
    simp only [jfuel, jsonChars, hct, List.length_cons]
    omega
  | jstr s =>
    simp [jfuel, jsonChars, stringChars]
  | jarr xs =>
    have h := jlistFuel_le xs
    simp only [jfuel, jsonChars, List.length_cons]
    omega
  | jobj fs =>
    have h := jfieldsFuel_le fs
    simp only [jfuel, jsonChars, List.length_cons]
    omega
theorem jlistFuel_le (xs : JsonList) : jlistFuel xs ≤ (jsonListChars xs).length := by
  cases xs with
  | nil => simp [jlistFuel, jsonListChars]
  | cons x xs2 =>
    have hx := jfuel_le x
    cases xs2 with
    | nil =>
      simp only [jlistFuel, jsonListChars, List.length_append, List.length_cons,
        List.length_nil]
      omega
    | cons y ys =>
      have ht := jlistFuel_le (.cons y ys)
      simp only [jlistFuel, jsonListChars, List.length_append, List.length_cons] at ht ⊢
      omega
theorem jfieldsFuel_le (fs : JsonFields) : jfieldsFuel fs ≤ (jsonFieldsChars fs).length := by
  cases fs with
  | nil => simp [jfieldsFuel, jsonFieldsChars]
  | cons k v fs2 =>
    have hv := jfuel_le v
    cases fs2 with
    | nil =>
      simp only [jfieldsFuel, jsonFieldsChars, List.length_append, List.length_cons,
        List.length_nil]
      omega
    | cons k2 v2 fs3 =>
      have ht := jfieldsFuel_le (.cons k2 v2 fs3)
      simp only [jfieldsFuel, jsonFieldsChars, List.length_append, List.length_cons] at ht ⊢
      omega
end

/-- The codec round-trip: parsing a stringified value recovers it. -/
theorem jsonParse_stringify (v : Json) : jsonParse (jsonStringify v) = some v := by
  have h := parseValue_chars v ((jsonChars v).length + 1)
    (le_trans (jfuel_le v) (Nat.le_succ _)) [] rfl
  rw [List.append_nil] at h
  simp only [jsonStringify, jsonParse, data_mk]
  rw [h]

end LikelihoodCalc

namespace LikelihoodCalc

/-! Persistence store (localStorage key "entities") -/

/-- JavaScript exceptions surfaced by the storage code: SyntaxError from
JSON.parse on corrupt input, TypeError from strict-mode property
assignment on a non-object. -/
inductive JsError where
  | parseError : JsError
  | typeError : JsError
deriving DecidableEq

/-- Decidable equality of results, for evaluating concrete runs. -/
def exceptDecEq {ε α : Type} [DecidableEq ε] [DecidableEq α] :
    (x y : Except ε α) → Decidable (x = y)
  | .error e, .error f =>
    if h : e = f then .isTrue (by rw [h]) else .isFalse (fun hh => h (Except.error.inj hh))
  | .error _, .ok _ => .isFalse (fun hh => Except.noConfusion hh)
  | .ok _, .error _ => .isFalse (fun hh => Except.noConfusion hh)
  | .ok a, .ok b =>
    if h : a = b then .isTrue (by rw [h]) else .isFalse (fun hh => h (Except.ok.inj hh))

instance {ε α : Type} [DecidableEq ε] [DecidableEq α] : DecidableEq (Except ε α) :=
  exceptDecEq

/-- Property read: first field with the key. -/
def objGet : JsonFields → String → Option Json
  | .nil, _ => none
  | .cons k v fs, key => if k = key then some v else objGet fs key

/-- Property assignment: replace in place when present, else append. -/
def objSet : JsonFields → String → Json → JsonFields
  | .nil, key, v => .cons key v .nil
  | .cons k w fs, key, v =>
    if k = key then .cons k v fs else .cons k w (objSet fs key v)

/-- Property deletion. -/
def objDelete : JsonFields → String → JsonFields
  | .nil, _ => .nil
  | .cons k v fs, key =>
    if k = key then objDelete fs key else .cons k v (objDelete fs key)

/-- JavaScript truthiness of a JSON value. -/
def truthy : Json → Bool
  | .jnull => false
  | .jbool b => b
  | .jnum m _ => decide (m ≠ 0)
  | .jstr s => decide (s ≠ "")
  | .jarr _ => true
  | .jobj _ => true

/-- localStorage.getItem('entities') followed by
entitiesJson ? JSON.parse(entitiesJson) : {} — an absent key or the empty
string (both falsy) give a fresh empty object; anything else is parsed,
and a parse failure is an uncaught SyntaxError. -/
def parseStore (store : Option String) : Except JsError Json :=
  match store with
  | none => .ok (.jobj .nil)
  | some s =>
    if s = "" then .ok (.jobj .nil)
    else
      match jsonParse s with
      | some v => .ok v
      | none => .error .parseError

/-- View a value as an object's field list. -/
def asObj : Json → Option JsonFields
  | .jobj fs => some fs
  | _ => none

/-- An object value, or a TypeError from strict-mode property assignment
on anything else. -/
def expectObj (v : Json) : Except JsError JsonFields :=
  match asObj v with
  | some fs => .ok fs
  | none => .error .typeError

/-- The if (!x) x = {} defaulting step: a falsy value is replaced by a
fresh empty object. -/
def orEmptyObj (v : Option Json) : Json :=
  match v with
  | some w => if truthy w then w else Json.jobj .nil
  | none => Json.jobj .nil

/-- The category partition read: entitiesData[categoryName], with a falsy
or absent partition replaced by a fresh empty object. -/
def partitionOf (fields : JsonFields) (categoryName : String) : Json :=
  orEmptyObj (objGet fields categoryName)

/-- getEntitiesFromLocalStorage (docs/app.js lines 897–905).  A stored
value parsing to a non-object makes the strict-mode property assignment
entitiesData[categoryName] = ... throw (typeError). -/
def getEntitiesFromLocalStorage (store : Option String) (categoryName : String) :
    Except JsError Json := do
  let entitiesData ← parseStore store
  let fields ← expectObj entitiesData
  pure (partitionOf fields categoryName)

/-- saveEntitiesToLocalStorage (docs/app.js lines 912–918): re-read and
re-parse the store, replace the category partition, stringify back. -/
def saveEntitiesToLocalStorage (store : Option String) (categoryName : String)
    (entities : Json) : Except JsError String := do
  let entitiesData ← parseStore store
  let fields ← expectObj entitiesData
  pure (jsonStringify (.jobj (objSet fields categoryName entities)))

/-- delete entities[entityName]: removes the key from an object and is a
no-op on anything else. -/
def deleteIfObj (entities : Json) (key : String) : Json :=
  match entities with
  | .jobj fs => .jobj (objDelete fs key)
  | other => other

/-- handleDeleteInvestor (docs/app.js lines 1064–1081), storage effect:
delete the entity key from the current category's partition and save the
partition back. -/
def handleDeleteInvestor (store : Option String) (categoryName entityName : String) :
    Except JsError String := do
  let entities ← getEntitiesFromLocalStorage store categoryName
  saveEntitiesToLocalStorage store categoryName (deleteIfObj entities entityName)

/-- A decimal number as stored in a score record. -/
structure DecNum where
  m : ℤ
  e : ℕ
deriving DecidableEq

/-- One element of the scores array: {score, weight, index}. -/
structure ScoreRecord where
  score : DecNum
  weight : DecNum
  index : DecNum
deriving DecidableEq

def encodeScoreRecord (r : ScoreRecord) : Json :=
  .jobj (.cons "score" (.jnum r.score.m r.score.e)
    (.cons "weight" (.jnum r.weight.m r.weight.e)
      (.cons "index" (.jnum r.index.m r.index.e) .nil)))

def encodeScores : List ScoreRecord → JsonList
  | [] => .nil
  | r :: rs => .cons (encodeScoreRecord r) (encodeScores rs)

/-- The saved record {scores, percentageLikelihood}. -/
def encodeResult (scores : List ScoreRecord) (percentageLikelihood : String) : Json :=
  .jobj (.cons "scores" (.jarr (encodeScores scores))
    (.cons "percentageLikelihood" (.jstr percentageLikelihood) .nil))

/-- saveInputsAndResults (docs/app.js lines 945–968): upsert
partition[entityName][categoryName][profileName] = {scores, percentage}
and save the partition back.  Truthy non-object intermediate levels make
the nested strict-mode property assignment throw. -/
def saveInputsAndResults (store : Option String) (categoryName profileName entityName : String)
    (scores : List ScoreRecord) (percentageLikelihood : String) : Except JsError String := do
  let entities ← getEntitiesFromLocalStorage store categoryName
  let fs ← expectObj entities
  let efs ← expectObj (orEmptyObj (objGet fs entityName))
  let cfs ← expectObj (orEmptyObj (objGet efs categoryName))
  saveEntitiesToLocalStorage store categoryName
    (.jobj (objSet fs entityName (.jobj (objSet efs categoryName
      (.jobj (objSet cfs profileName (encodeResult scores percentageLikelihood)))))))

/-- The truthy chain read
entityData && entityData[category] && entityData[category][profile]
of loadSavedInputs: the saved record, or none for the reset path. -/
def readSaved (entities : Json) (categoryName profileName entityName : String) : Option Json :=
  (asObj entities).bind (fun fs =>
    (objGet fs entityName).bind (fun entityData =>
      if truthy entityData then
        (asObj entityData).bind (fun efs =>
          (objGet efs categoryName).bind (fun catData =>
            if truthy catData then
              (asObj catData).bind (fun cfs =>
                (objGet cfs profileName).bind (fun saved =>
                  if truthy saved then some saved else none))
            else none))
      else none))

/-- loadSavedInputs (docs/app.js lines 974–1017), read part: returns the
saved record when the truthy chain holds, and the reset signal (none)
otherwise; reads never throw once the partition is obtained. -/
def loadSavedInputs (store : Option String) (categoryName profileName entityName : String) :
    Except JsError (Option Json) := do
  let entities ← getEntitiesFromLocalStorage store categoryName
  pure (readSaved entities categoryName profileName entityName)

theorem objGet_objSet_self (fs : JsonFields) (k : String) (v : Json) :
    objGet (objSet fs k v) k = some v := by
  cases fs with
  | nil => simp [objSet, objGet]
  | cons k2 w fs =>
    by_cases h : k2 = k
    · rw [objSet, if_pos h, objGet, if_pos h]
    · rw [objSet, if_neg h, objGet, if_neg h, objGet_objSet_self fs k v]

theorem objGet_objSet_other (fs : JsonFields) (k k2 : String) (v : Json) (h : k2 ≠ k) :
    objGet (objSet fs k v) k2 = objGet fs k2 := by
  cases fs with
  | nil =>
    show objGet (objSet JsonFields.nil k v) k2 = none
    rw [objSet, objGet, if_neg (fun he => h he.symm), objGet]
  | cons k3 w fs =>
    by_cases h3 : k3 = k
    · rw [objSet, if_pos h3, objGet, objGet, if_neg (fun he => h (he.symm.trans h3)),
        if_neg (fun he => h (he.symm.trans h3))]
    · rw [objSet, if_neg h3, objGet, objGet, objGet_objSet_other fs k k2 v h]

theorem objGet_objDelete_self (fs : JsonFields) (k : String) :
    objGet (objDelete fs k) k = none := by
  cases fs with
  | nil => simp [objDelete, objGet]
  | cons k2 w fs =>
    by_cases h : k2 = k
    · rw [objDelete, if_pos h, objGet_objDelete_self fs k]
    · rw [objDelete, if_neg h, objGet, if_neg h, objGet_objDelete_self fs k]

theorem objGet_objDelete_other (fs : JsonFields) (k k2 : String) (h : k2 ≠ k) :
    objGet (objDelete fs k) k2 = objGet fs k2 := by
  cases fs with
  | nil => rfl
  | cons k3 w fs =>
    by_cases h3 : k3 = k
    · rw [objDelete, if_pos h3, objGet_objDelete_other fs k k2 h, objGet,
        if_neg (fun he => h (he.symm.trans h3))]
    · rw [objDelete, if_neg h3, objGet, objGet, objGet_objDelete_other fs k k2 h]

theorem ebind_ok_inv {α β : Type} {x : Except JsError α} {f : α → Except JsError β} {b : β}
    (h : (x >>= f) = .ok b) : ∃ a, x = .ok a ∧ f a = .ok b := by
  cases x with
  | error e => exact Except.noConfusion h
  | ok a => exact ⟨a, rfl, h⟩

theorem epure_ok_inv {α : Type} {a b : α} (h : (pure a : Except JsError α) = .ok b) : a = b :=
  Except.ok.inj h

theorem expectObj_ok_inv {d : Json} {F : JsonFields} (h : expectObj d = .ok F) :
    d = .jobj F := by
  cases d with
  | jobj fs => rw [Except.ok.inj h]
  | jnull => exact Except.noConfusion h
  | jbool b => exact Except.noConfusion h
  | jnum m e => exact Except.noConfusion h
  | jstr s => exact Except.noConfusion h
  | jarr l => exact Except.noConfusion h

theorem jsonStringify_jobj_ne_empty (G : JsonFields) : jsonStringify (Json.jobj G) ≠ "" := by
  intro h
  have h2 : (jsonStringify (Json.jobj G)).data = ("" : String).data := congrArg String.data h
  rw [jsonStringify, data_mk, jsonChars] at h2
  exact List.noConfusion h2

theorem parseStore_stringify (G : JsonFields) :
    parseStore (some (jsonStringify (Json.jobj G))) = .ok (Json.jobj G) := by
  rw [parseStore, if_neg (jsonStringify_jobj_ne_empty G), jsonParse_stringify]

theorem getEntities_stringify (G : JsonFields) (cat : String) :
    getEntitiesFromLocalStorage (some (jsonStringify (Json.jobj G))) cat =
      .ok (partitionOf G cat) := by
  rw [getEntitiesFromLocalStorage, parseStore_stringify]
  rfl

theorem readSaved_saved (fs efs cfs : JsonFields) (cat prof ent : String) (R : Json)
    (hR : truthy R = true) :
    readSaved (Json.jobj (objSet fs ent (Json.jobj (objSet efs cat
      (Json.jobj (objSet cfs prof R)))))) cat prof ent = some R := by
  have ht : ∀ G : JsonFields, truthy (Json.jobj G) = true := fun _ => rfl
  simp [readSaved, asObj, objGet_objSet_self, ht, hR]

/-- C3 counterexample: reading the store with the corrupt JSON text "\x7b"
does not return an empty object — JSON.parse raises an uncaught
SyntaxError, so getEntitiesFromLocalStorage throws. -/
theorem corrupt_store_counterexample :
    getEntitiesFromLocalStorage (some "\x7b") "Investment" ≠ .ok (Json.jobj .nil) ∧
    getEntitiesFromLocalStorage (some "\x7b") "Investment" = .error .parseError := by
  decide

/-- C3 (amended): an absent or empty store yields a fresh empty object,
but a non-empty store that fails to parse makes
getEntitiesFromLocalStorage throw the parse error — there is no
try/catch around JSON.parse. -/
theorem corrupt_store_behaviour (s cat : String) :
    getEntitiesFromLocalStorage none cat = .ok (Json.jobj .nil) ∧
    getEntitiesFromLocalStorage (some "") cat = .ok (Json.jobj .nil) ∧
    (s ≠ "" → jsonParse s = none →
      getEntitiesFromLocalStorage (some s) cat = .error .parseError) := by
  refine ⟨rfl, rfl, fun hne hparse => ?_⟩
  rw [getEntitiesFromLocalStorage, parseStore, if_neg hne, hparse]
  rfl

theorem corrupt_store_behaviour_witness :
    ("x" : String) ≠ "" ∧ jsonParse "x" = none ∧
    getEntitiesFromLocalStorage (some "x") "Investment" = .error .parseError :=
  ⟨by decide, by decide,
    (corrupt_store_behaviour "x" "Investment").2.2 (by decide) (by decide)⟩

/-- C6: whenever saveInputsAndResults succeeds and returns the new stored
text, loadSavedInputs on that text for the same category, profile and
entity recovers exactly the saved record \x7bscores, percentageLikelihood\x7d. -/
theorem save_load_roundtrip (store : Option String)
    (categoryName profileName entityName : String)
    (scores : List ScoreRecord) (pct : String) (store2 : String)
    (hsave : saveInputsAndResults store categoryName profileName entityName scores pct =
      .ok store2) :
    loadSavedInputs (some store2) categoryName profileName entityName =
      .ok (some (encodeResult scores pct)) := by
  rw [saveInputsAndResults] at hsave
  obtain ⟨entities, -, hsave⟩ := ebind_ok_inv hsave
  obtain ⟨fs, -, hsave⟩ := ebind_ok_inv hsave
  obtain ⟨efs, -, hsave⟩ := ebind_ok_inv hsave
  obtain ⟨cfs, -, hsave⟩ := ebind_ok_inv hsave
  rw [saveEntitiesToLocalStorage] at hsave
  obtain ⟨d, hd, hsave⟩ := ebind_ok_inv hsave
  obtain ⟨F, hF, hsave⟩ := ebind_ok_inv hsave
  obtain rfl : d = Json.jobj F := expectObj_ok_inv hF
  obtain rfl := epure_ok_inv hsave
  rw [loadSavedInputs, getEntities_stringify, partitionOf, objGet_objSet_self]
  show Except.ok (readSaved (Json.jobj (objSet fs entityName (Json.jobj (objSet efs
    categoryName (Json.jobj (objSet cfs profileName (encodeResult scores pct)))))))
    categoryName profileName entityName) = Except.ok (some (encodeResult scores pct))
  rw [readSaved_saved fs efs cfs categoryName profileName entityName
    (encodeResult scores pct) rfl]

/-- A concrete scores array for evaluating the round trip. -/
def cScores : List ScoreRecord := [⟨⟨3, 0⟩, ⟨25, 0⟩, ⟨0, 0⟩⟩]

/-- The stored text produced by saving cScores into an empty store. -/
def cSavedStore : String :=
  jsonStringify (Json.jobj (.cons "Investment" (Json.jobj (.cons "Acme"
    (Json.jobj (.cons "Investment" (Json.jobj (.cons "Angel"
      (encodeResult cScores "75.00") .nil)) .nil)) .nil)) .nil))

theorem save_load_roundtrip_witness :
    saveInputsAndResults none "Investment" "Angel" "Acme" cScores "75.00" =
      .ok cSavedStore ∧
    loadSavedInputs (some cSavedStore) "Investment" "Angel" "Acme" =
      .ok (some (encodeResult cScores "75.00")) :=
  ⟨by decide, save_load_roundtrip none "Investment" "Angel" "Acme" cScores "75.00"
    cSavedStore (by decide)⟩

/-- C10: deleting an entity rewrites the store to the same object with
only the current category partition changed; in that partition only the
deleted key is removed, every other key keeps its exact value, and every
other category keeps its exact partition sub-value. -/
theorem delete_frame (store : Option String) (cat ent : String) (F P : JsonFields)
    (hp : parseStore store = .ok (.jobj F))
    (hP : partitionOf F cat = .jobj P) :
    handleDeleteInvestor store cat ent =
      .ok (jsonStringify (.jobj (objSet F cat (.jobj (objDelete P ent))))) ∧
    objGet (objDelete P ent) ent = none ∧
    (∀ k, k ≠ ent → objGet (objDelete P ent) k = objGet P k) ∧
    (∀ c, c ≠ cat → objGet (objSet F cat (.jobj (objDelete P ent))) c = objGet F c) := by
  have hge : getEntitiesFromLocalStorage store cat = .ok (Json.jobj P) := by
    rw [getEntitiesFromLocalStorage, hp]
    show Except.ok (partitionOf F cat) = Except.ok (Json.jobj P)
    rw [hP]
  refine ⟨?_, objGet_objDelete_self P ent, fun k hk => objGet_objDelete_other P ent k hk,
    fun c hc => objGet_objSet_other F cat c (Json.jobj (objDelete P ent)) hc⟩
  rw [handleDeleteInvestor, hge]
  show saveEntitiesToLocalStorage store cat (deleteIfObj (Json.jobj P) ent) = _
  rw [show deleteIfObj (Json.jobj P) ent = Json.jobj (objDelete P ent) from rfl]
  rw [saveEntitiesToLocalStorage, hp]
  rfl

/-- A concrete two-category store with two entities under category A. -/
def cDelP : JsonFields :=
  .cons "x" (Json.jnum 1 0) (.cons "y" (Json.jnum 2 0) .nil)

def cDelF : JsonFields :=
  .cons "A" (Json.jobj cDelP) (.cons "B" (Json.jobj (.cons "x" (Json.jnum 3 0) .nil)) .nil)

theorem delete_frame_witness :
    parseStore (some (jsonStringify (Json.jobj cDelF))) = .ok (.jobj cDelF) ∧
    partitionOf cDelF "A" = .jobj cDelP ∧
    handleDeleteInvestor (some (jsonStringify (Json.jobj cDelF))) "A" "x" =
      .ok (jsonStringify (.jobj (objSet cDelF "A" (.jobj (objDelete cDelP "x"))))) ∧
    objGet (objDelete cDelP "x") "x" = none ∧
    objGet (objDelete cDelP "x") "y" = objGet cDelP "y" ∧
    objGet (objSet cDelF "A" (.jobj (objDelete cDelP "x"))) "B" = objGet cDelF "B" := by
  have h := delete_frame (some (jsonStringify (Json.jobj cDelF))) "A" "x" cDelF cDelP
    (by decide) (by decide)
  exact ⟨by decide, by decide, h.1, h.2.1, h.2.2.1 "y" (by decide), h.2.2.2 "B" (by decide)⟩

end LikelihoodCalc
